import Mathlib

/-!
Verification of the SWF telemetry opt-in rewriter (`add-opt-in.go`).

The program is a streaming editor for the SWF container format: it reads an
8-byte header, a bit-packed bounding box, the 2-byte frame rate and 2-byte
frame count, and then a sequence of type-tagged records ("tags"), inserting a
synthesized telemetry opt-in tag after the file-attributes tag, and finally
patches the 4-byte little-endian total-uncompressed-length field at byte
offset 4 of the output.

The embedding below models the byte stream as `List Nat` where every element
is a byte value (< 256).  Go's `binary.Read` / `io.ReadFull` calls in the
source ignore their error return: on a short read the destination keeps its
zero value and the partially filled buffer is zero-padded, while the available
bytes are still consumed.  The reader functions below reproduce exactly that
behaviour.  All machine arithmetic (uint16 / uint32) is modelled on `Nat`
with explicit `% 65536` / `% 4294967296` where overflow is possible, and the
source's bit operations `>> 6`, `& 0x3f`, `>> 3`, `& 0xff` are rendered as
`/ 64`, `% 64`, `/ 8`, `% 256`.
-/

namespace SwfTelemetry

/-- The modulus 2 to the 32, of the `uint32` running length counter. -/
def M32 : Nat := 4294967296

/-- One `headerUncompressedLength += k` step on the `uint32` counter. -/
def addC (c k : Nat) : Nat := (c + k) % M32

/-- Little-endian encoding of a `uint16` value, as written by
`binary.Write(w, binary.LittleEndian, &x)` for a `uint16` x. -/
def u16le (w : Nat) : List Nat := [w % 256, w / 256 % 256]

/-- Little-endian encoding of a `uint32` value. -/
def u32le (w : Nat) : List Nat :=
  [w % 256, w / 256 % 256, w / 65536 % 256, w / 16777216 % 256]

/-- One byte as written by `binary.Write` for a `uint8`. -/
def u8 (b : Nat) : List Nat := [b % 256]

/-- Model of `binary.Read(reader, binary.LittleEndian, &x)` for a fresh `uint8` x:
reads one byte; on a short read the error is ignored and x stays 0. -/
def readU8 : List Nat → Nat × List Nat
  | b :: rest => (b, rest)
  | _ => (0, [])

/-- Model of `binary.Read(reader, binary.LittleEndian, &x)` for a fresh `uint16` x:
reads two bytes little-endian.  On a short read `io.ReadFull` consumes
whatever was available, the error is ignored, and x keeps its zero value. -/
def readU16LE : List Nat → Nat × List Nat
  | b0 :: b1 :: rest => (b0 + 256 * b1, rest)
  | _ => (0, [])

/-- Model of `binary.Read(reader, binary.LittleEndian, &x)` for a fresh `uint32` x,
with the same silently-swallowed short-read behaviour. -/
def readU32LE : List Nat → Nat × List Nat
  | b0 :: b1 :: b2 :: b3 :: rest =>
      (b0 + 256 * b1 + 65536 * b2 + 16777216 * b3, rest)
  | _ => (0, [])

/-- Model of `buf := make([]byte, n); io.ReadFull(reader, buf)` with the error
ignored: the buffer holds the available bytes, zero-padded to length n, and
the available bytes are consumed. -/
def readFull (n : Nat) (s : List Nat) : List Nat × List Nat :=
  (s.take n ++ List.replicate (n - s.length) 0, s.drop n)

/-- Tag type constants of the source. -/
def TAG_TELEMETRY : Nat := 93

def TAG_SIGNED_SWF : Nat := 94

def TAG_FILE_ATTRIBUTES : Nat := 69

def TAG_META : Nat := 77

def TAG_END : Nat := 0

/-- The source's `peekTag`: reads one record.  The 16-bit word holds the type in its high
10 bits (`>> 6`, here `/ 64`) and the length in its low 6 bits (`& 0x3f`,
here `% 64`); a low-6-bits value of 63 announces a long tag whose real length
follows as a `uint32`.  Returns the tag type, the full wire encoding
(re-serialized length prefix plus the zero-padded payload buffer, exactly the
bytes `tagBuffer` accumulates in the source), and the unread remainder. -/
def peekTag (s : List Nat) : Nat × List Nat × List Nat :=
  let r1 := readU16LE s
  let tagType := r1.1 / 64
  let shortLen := r1.1 % 64
  if 63 ≤ shortLen then
    let r2 := readU32LE r1.2
    let r3 := readFull r2.1 r2.2
    (tagType, u16le r1.1 ++ u32le r2.1 ++ r3.1, r3.2)
  else
    let r2 := readFull shortLen r1.2
    (tagType, u16le r1.1 ++ r2.1, r2.2)

/-- The source's `writeTelemetryTag`: emits the synthesized telemetry tag (type 93,
2-byte zero payload) and advances the running counter.  `tagLength` is the
constant 2, so the long-form branch is dead code; it is modelled anyway,
faithfully to the source (including the counter increments it would do). -/
def writeTelemetryTag (c : Nat) : List Nat × Nat :=
  let tagLength : Nat := 2
  if 63 ≤ tagLength then
    (u16le ((TAG_TELEMETRY * 64 + 63) % 65536) ++ u16le tagLength ++ u16le 0,
     addC (addC (addC c 2) 4) 2)
  else
    (u16le ((TAG_TELEMETRY * 64 + tagLength) % 65536) ++ u16le 0,
     addC (addC c 2) 2)

/-- The source's `nBits`: the top 5 bits of the first bounding-box byte,
`(frameSize & 0xff) >> 3` in the source. -/
def nBits (frameSize : Nat) : Nat := (frameSize % 256) / 8

/-- The source's `numberOfBytes`: the number of bounding-box bytes after the first one,
`(7 + uint32(nBits)*4 - 3) / 8` in the source (uint32 arithmetic, which
cannot underflow or overflow here, so plain `Nat` arithmetic agrees). -/
def numberOfBytes (frameSize : Nat) : Nat := (7 + nBits frameSize * 4 - 3) / 8

/-- The three signature strings recognized by the source, as byte lists. -/
def NO_COMPRESSION : List Nat := [70, 87, 83]

def ZLIB_COMPRESSION : List Nat := [67, 87, 83]

def LZMA_COMPRESSION : List Nat := [90, 87, 83]

/-- Outcome of the signature dispatch if-chain in `main`.  The source has no
final `else`: a signature that is none of "FWS", "CWS", "ZWS" leaves both
`reader` and `writer` nil, and the program then dereferences the nil
`reader` at the first body read (a runtime panic, after the 8 header bytes
were already written to the temp file); `nilReaderFallthrough` records that
outcome.  No `InvalidHeaderError` (or any header validation) exists in the
source. -/
inductive DispatchResult where
  | noCompression : DispatchResult
  | zlibCompression : DispatchResult
  | lzmaUnsupported : DispatchResult
  | nilReaderFallthrough : DispatchResult
deriving DecidableEq

/-- The `compressionType` if-chain of `main` (lines 121-134 of the source). -/
def dispatchCompression (sig : List Nat) : DispatchResult :=
  if sig = NO_COMPRESSION then .noCompression
  else if sig = ZLIB_COMPRESSION then .zlibCompression
  else if sig = LZMA_COMPRESSION then .lzmaUnsupported
  else .nilReaderFallthrough

/-- The ways the rewrite aborts without producing an output file.  The two
`panic` calls of the scan loop, plus the early `return` when the 8-byte
header cannot be read.  (The source has no truncation, header-validation or
patch-failure errors: those reads ignore their errors entirely.) -/
inductive Err where
  | alreadyEnabled : Err
  | signedSwf : Err
  | headerTruncated : Err
deriving DecidableEq

/-- A record of the container body, as an abstract value: its 10-bit type,
its payload bytes, and which of the two wire forms encodes it.  Used to
describe well-formed input streams in the theorems below. -/
structure SwfTag where
  type : Nat
  payload : List Nat
  longForm : Bool
deriving DecidableEq

/-- The wire encoding of a tag: short form packs the payload length into the
low 6 bits of the 16-bit word; long form puts 63 there and the real length in
a following `uint32`. -/
def encodeTag (t : SwfTag) : List Nat :=
  if t.longForm then
    u16le (t.type * 64 + 63) ++ u32le t.payload.length ++ t.payload
  else
    u16le (t.type * 64 + t.payload.length) ++ t.payload

/-- Well-formedness of an abstract tag: the type fits in 10 bits, the payload
is made of bytes, and the payload length fits the chosen wire form. -/
def wfTag (t : SwfTag) : Prop :=
  t.type < 1024 ∧ (∀ b ∈ t.payload, b < 256) ∧
    (t.longForm = true → t.payload.length < 4294967296) ∧
    (t.longForm = false → t.payload.length < 63)

instance (t : SwfTag) : Decidable (wfTag t) := by
  unfold wfTag
  infer_instance

/-- Concatenated wire encoding of a list of tags. -/
def encodeTags (l : List SwfTag) : List Nat :=
  l.foldr (fun t acc => encodeTag t ++ acc) []

/-! ### Reader helper lemmas -/

theorem u16le_decode (b0 b1 : Nat) (h0 : b0 < 256) (h1 : b1 < 256) :
    u16le (b0 + 256 * b1) = [b0, b1] := by
  simp only [u16le]
  have e0 : (b0 + 256 * b1) % 256 = b0 := by omega
  have e1 : (b0 + 256 * b1) / 256 % 256 = b1 := by omega
  rw [e0, e1]

theorem u32le_decode (b0 b1 b2 b3 : Nat) (h0 : b0 < 256) (h1 : b1 < 256)
    (h2 : b2 < 256) (h3 : b3 < 256) :
    u32le (b0 + 256 * b1 + 65536 * b2 + 16777216 * b3) = [b0, b1, b2, b3] := by
  simp only [u32le]
  have e0 : (b0 + 256 * b1 + 65536 * b2 + 16777216 * b3) % 256 = b0 := by omega
  have e1 : (b0 + 256 * b1 + 65536 * b2 + 16777216 * b3) / 256 % 256 = b1 := by
    omega
  have e2 : (b0 + 256 * b1 + 65536 * b2 + 16777216 * b3) / 65536 % 256 = b2 := by
    omega
  have e3 : (b0 + 256 * b1 + 65536 * b2 + 16777216 * b3) / 16777216 % 256 = b3 := by
    omega
  rw [e0, e1, e2, e3]

theorem readU16LE_u16le (w : Nat) (hw : w < 65536) (rest : List Nat) :
    readU16LE (u16le w ++ rest) = (w, rest) := by
  simp only [u16le, List.cons_append, List.nil_append, readU16LE,
    Prod.mk.injEq]
  exact ⟨by omega, trivial⟩

theorem readU32LE_u32le (w : Nat) (hw : w < 4294967296) (rest : List Nat) :
    readU32LE (u32le w ++ rest) = (w, rest) := by
  simp only [u32le, List.cons_append, List.nil_append, readU32LE,
    Prod.mk.injEq]
  exact ⟨by omega, trivial⟩

theorem readFull_exact (xs rest : List Nat) :
    readFull xs.length (xs ++ rest) = (xs, rest) := by
  simp [readFull, List.take_left, List.drop_left]

theorem encodeTag_short (t : SwfTag) (hl : t.longForm = false) :
    encodeTag t = u16le (t.type * 64 + t.payload.length) ++ t.payload := by
  simp [encodeTag, hl]

theorem encodeTag_long (t : SwfTag) (hl : t.longForm = true) :
    encodeTag t = u16le (t.type * 64 + 63) ++ u32le t.payload.length ++
      t.payload := by
  simp [encodeTag, hl]

/-- C8 core: `peekTag` on a well-formed encoded tag followed by anything
returns the tag's type, its exact wire bytes, and the untouched remainder. -/
theorem peekTag_encodeTag (t : SwfTag) (ht : wfTag t) (rest : List Nat) :
    peekTag (encodeTag t ++ rest) = (t.type, encodeTag t, rest) := by
  obtain ⟨htype, hbytes, hlong, hshort⟩ := ht
  cases hl : t.longForm with
  | false =>
      have hlen : t.payload.length < 63 := hshort hl
      have hw : t.type * 64 + t.payload.length < 65536 := by omega
      rw [encodeTag_short t hl, List.append_assoc]
      simp only [peekTag, readU16LE_u16le _ hw]
      have hmod : (t.type * 64 + t.payload.length) % 64 = t.payload.length := by
        omega
      have hdiv : (t.type * 64 + t.payload.length) / 64 = t.type := by omega
      rw [hmod, hdiv, if_neg (by omega), readFull_exact]
  | true =>
      have hlen : t.payload.length < 4294967296 := hlong hl
      have hw : t.type * 64 + 63 < 65536 := by omega
      rw [encodeTag_long t hl, List.append_assoc, List.append_assoc]
      simp only [peekTag, readU16LE_u16le _ hw]
      have hmod : (t.type * 64 + 63) % 64 = 63 := by omega
      have hdiv : (t.type * 64 + 63) / 64 = t.type := by omega
      rw [hmod, hdiv, if_pos (by omega), readU32LE_u32le _ hlen,
        readFull_exact]

/-! ### Claims C4, C6, C9 -/

/-- Claim C4: the claim says a short read anywhere fails with
`TruncatedStreamError` and is never treated as a well-formed record.  The
source's `peekTag` ignores every error: on an empty source the tag word stays
0 and `peekTag` returns type 0 with wire bytes `[0, 0]` — byte-identical to a
well-formed end record — and on a source that ends inside a declared payload
the missing payload bytes are silently fabricated as zeros (here a declared
1-byte payload from the 2 remaining header bytes `[65, 4]`).  This theorem
evaluates the code at those failing inputs; it refutes the claim as a
statement about the code. -/
theorem c4_short_read_swallowed :
    peekTag [] = (0, [0, 0], []) ∧ peekTag [65, 4] = (17, [65, 4, 0], []) := by
  decide

/-- Claim C6: the claim says an unrecognized 3-byte signature fails with
`InvalidHeaderError` as a clean fatal format error.  The source's dispatch
if-chain has no else branch: an unrecognized signature (here "XXX", bytes
`[88, 88, 88]`) falls through with `reader` and `writer` still nil, and the
program panics with a nil-pointer dereference at the first body read — there
is no `InvalidHeaderError` anywhere in the code (the error type `Err` of this
embedding faithfully has no such constructor). -/
theorem c6_unknown_signature_falls_through :
    dispatchCompression [88, 88, 88] = DispatchResult.nilReaderFallthrough := by
  decide

/-- Claim C9: for every first bounding-box byte, the trailing byte count is
`(7 + nBits*4 - 3) / 8` under integer truncation, which equals the ceiling
`ceil((5 + 4*nBits - 5)/8)` — written in `Nat` as `(5 + 4*n - 5 + 7) / 8` —
and in particular `nBits = 0` (first byte 0) gives 0 trailing bytes and
`nBits = 8` (first byte 64) gives 4. -/
theorem c9_bitfield_byte_count (frameSize : Nat) :
    numberOfBytes frameSize = (7 + nBits frameSize * 4 - 3) / 8 ∧
    numberOfBytes frameSize = (5 + 4 * nBits frameSize - 5 + 7) / 8 ∧
    numberOfBytes 0 = 0 ∧ numberOfBytes 64 = 4 := by
  refine ⟨rfl, ?_, by decide, by decide⟩
  unfold numberOfBytes
  omega

/-! ### The scanning loop -/

theorem readU16LE_rest_length_le (s : List Nat) :
    (readU16LE s).2.length ≤ s.length := by
  match s with
  | [] => simp [readU16LE]
  | [b] => simp [readU16LE]
  | b0 :: b1 :: r => simp [readU16LE]; omega

theorem readU16LE_rest_length_lt (s : List Nat) (h : s ≠ []) :
    (readU16LE s).2.length < s.length := by
  match s with
  | [] => exact absurd rfl h
  | [b] => simp [readU16LE]
  | b0 :: b1 :: r => simp [readU16LE]; omega

theorem readU32LE_rest_length_le (s : List Nat) :
    (readU32LE s).2.length ≤ s.length := by
  match s with
  | [] => simp [readU32LE]
  | [b] => simp [readU32LE]
  | [b0, b1] => simp [readU32LE]
  | [b0, b1, b2] => simp [readU32LE]
  | b0 :: b1 :: b2 :: b3 :: r => simp [readU32LE]; omega

theorem peekTag_rest_length_le (s : List Nat) :
    (peekTag s).2.2.length ≤ s.length := by
  have h16 := readU16LE_rest_length_le s
  have h32 := readU32LE_rest_length_le (readU16LE s).2
  simp only [peekTag]
  split
  · simp only [readFull, List.length_drop]
    omega
  · simp only [readFull, List.length_drop]
    omega

theorem peekTag_rest_length_lt (s : List Nat) (h : s ≠ []) :
    (peekTag s).2.2.length < s.length := by
  have h16 := readU16LE_rest_length_lt s h
  have h32 := readU32LE_rest_length_le (readU16LE s).2
  simp only [peekTag]
  split
  · simp only [readFull, List.length_drop]
    omega
  · simp only [readFull, List.length_drop]
    omega

theorem peekTag_nil : peekTag [] = (0, [0, 0], []) := by decide

/-- The scanning loop of `main` (lines 178-206 of the source), over the
decompressed remainder `s` of the body, with `c` the running
`headerUncompressedLength` counter.  Returns the bytes written to `writer`
and the final counter, or the panic the loop raises.  Note two source
behaviours reproduced faithfully: the one-step lookahead after a
file-attributes tag copies the next tag verbatim whatever its type (only
comparing it against `TAG_META` for the ordering decision), and the loop
`break`s only on an end tag read at the top of the loop. -/
def scanTags (s : List Nat) (c : Nat) : Except Err (List Nat × Nat) :=
  let p := peekTag s
  if p.1 = TAG_TELEMETRY then .error .alreadyEnabled
  else if p.1 = TAG_SIGNED_SWF then .error .signedSwf
  else if hfa : p.1 = TAG_FILE_ATTRIBUTES then
    let q := peekTag p.2.2
    if q.1 = TAG_META then
      let t := writeTelemetryTag (addC (addC c p.2.1.length) q.2.1.length)
      match scanTags q.2.2 t.2 with
      | .error e => .error e
      | .ok r => .ok (p.2.1 ++ q.2.1 ++ t.1 ++ r.1, r.2)
    else
      let t := writeTelemetryTag (addC c p.2.1.length)
      match scanTags q.2.2 (addC t.2 q.2.1.length) with
      | .error e => .error e
      | .ok r => .ok (p.2.1 ++ t.1 ++ q.2.1 ++ r.1, r.2)
  else if hend : p.1 = TAG_END then .ok (p.2.1, addC c p.2.1.length)
  else
    match scanTags p.2.2 (addC c p.2.1.length) with
    | .error e => .error e
    | .ok r => .ok (p.2.1 ++ r.1, r.2)
termination_by s.length
decreasing_by
  · have hfa' : (peekTag s).1 = TAG_FILE_ATTRIBUTES := hfa
    have hne : s ≠ [] := by
      intro h
      rw [h, peekTag_nil] at hfa'
      exact absurd hfa' (by decide)
    show (peekTag (peekTag s).2.2).2.2.length < s.length
    exact lt_of_le_of_lt (peekTag_rest_length_le _) (peekTag_rest_length_lt s hne)
  · have hfa' : (peekTag s).1 = TAG_FILE_ATTRIBUTES := hfa
    have hne : s ≠ [] := by
      intro h
      rw [h, peekTag_nil] at hfa'
      exact absurd hfa' (by decide)
    show (peekTag (peekTag s).2.2).2.2.length < s.length
    exact lt_of_le_of_lt (peekTag_rest_length_le _) (peekTag_rest_length_lt s hne)
  · have hend' : ¬(peekTag s).1 = TAG_END := hend
    have hne : s ≠ [] := by
      intro h
      rw [h, peekTag_nil] at hend'
      exact hend' rfl
    show (peekTag s).2.2.length < s.length
    exact peekTag_rest_length_lt s hne

/-! ### Counter and unfolding lemmas for the scan loop -/

theorem addC_addC (c a b : Nat) : addC (addC c a) b = addC c (a + b) := by
  unfold addC M32
  omega

theorem addC_lt (c k : Nat) : addC c k < M32 := by
  unfold addC M32
  omega

theorem addC_of_lt (c k : Nat) (h : c + k < M32) : addC c k = c + k := by
  unfold addC
  unfold M32 at h ⊢
  omega

theorem writeTelemetryTag_eq (c : Nat) :
    writeTelemetryTag c = ([66, 23, 0, 0], addC (addC c 2) 2) := by
  unfold writeTelemetryTag TAG_TELEMETRY
  norm_num [u16le]

theorem peekTag_end (b : List Nat) : peekTag (0 :: 0 :: b) = (0, [0, 0], b) := by
  simp [peekTag, readU16LE, readFull, u16le]

theorem scanTags_nil (c : Nat) : scanTags [] c = .ok ([0, 0], addC c 2) := by
  rw [scanTags.eq_def]
  simp [peekTag_nil, TAG_TELEMETRY, TAG_SIGNED_SWF, TAG_FILE_ATTRIBUTES,
    TAG_END]

theorem scanTags_end (b : List Nat) (c : Nat) :
    scanTags (0 :: 0 :: b) c = .ok ([0, 0], addC c 2) := by
  rw [scanTags.eq_def]
  simp [peekTag_end, TAG_TELEMETRY, TAG_SIGNED_SWF, TAG_FILE_ATTRIBUTES,
    TAG_END]

/-- An ordinary tag (not end, file-attributes, telemetry, or signed) is
copied verbatim and scanning continues. -/
theorem scanTags_copy (t : SwfTag) (ht : wfTag t) (h0 : t.type ≠ TAG_END)
    (h69 : t.type ≠ TAG_FILE_ATTRIBUTES) (h93 : t.type ≠ TAG_TELEMETRY)
    (h94 : t.type ≠ TAG_SIGNED_SWF) (s : List Nat) (c : Nat) :
    scanTags (encodeTag t ++ s) c =
      (scanTags s (addC c (encodeTag t).length)).map
        (fun r => (encodeTag t ++ r.1, r.2)) := by
  conv_lhs => rw [scanTags.eq_def]
  simp only [peekTag_encodeTag t ht s, if_neg h93, if_neg h94, dif_neg h69,
    dif_neg h0]
  cases scanTags s (addC c (encodeTag t).length) with
  | error e => rfl
  | ok r => rfl

/-- A telemetry tag read at the top of the loop panics. -/
theorem scanTags_telemetry (t : SwfTag) (ht : wfTag t)
    (h93 : t.type = TAG_TELEMETRY) (s : List Nat) (c : Nat) :
    scanTags (encodeTag t ++ s) c = .error .alreadyEnabled := by
  conv_lhs => rw [scanTags.eq_def]
  simp only [peekTag_encodeTag t ht s, if_pos h93]

/-- A signed-SWF tag read at the top of the loop panics. -/
theorem scanTags_signed (t : SwfTag) (ht : wfTag t)
    (h94 : t.type = TAG_SIGNED_SWF) (s : List Nat) (c : Nat) :
    scanTags (encodeTag t ++ s) c = .error .signedSwf := by
  have h93 : ¬t.type = TAG_TELEMETRY := by
    rw [h94]
    decide
  conv_lhs => rw [scanTags.eq_def]
  simp only [peekTag_encodeTag t ht s, if_neg h93, if_pos h94]

/-- File-attributes tag whose looked-ahead follower is a metadata tag: copy
both, then insert the telemetry tag after them. -/
theorem scanTags_fa_meta (fa nxt : SwfTag) (hfa : wfTag fa)
    (hfat : fa.type = TAG_FILE_ATTRIBUTES) (hnxt : wfTag nxt)
    (hmeta : nxt.type = TAG_META) (s : List Nat) (c : Nat) :
    scanTags (encodeTag fa ++ encodeTag nxt ++ s) c =
      (scanTags s
          (addC c ((encodeTag fa).length + (encodeTag nxt).length + 4))).map
        (fun r =>
          (encodeTag fa ++ encodeTag nxt ++ [66, 23, 0, 0] ++ r.1, r.2)) := by
  have h93 : ¬fa.type = TAG_TELEMETRY := by
    rw [hfat]
    decide
  have h94 : ¬fa.type = TAG_SIGNED_SWF := by
    rw [hfat]
    decide
  rw [List.append_assoc]
  conv_lhs => rw [scanTags.eq_def]
  simp only [peekTag_encodeTag fa hfa (encodeTag nxt ++ s), if_neg h93,
    if_neg h94, dif_pos hfat, peekTag_encodeTag nxt hnxt s, if_pos hmeta,
    writeTelemetryTag_eq]
  have hc : addC (addC (addC (addC c (encodeTag fa).length)
      (encodeTag nxt).length) 2) 2 =
      addC c ((encodeTag fa).length + (encodeTag nxt).length + 4) := by
    unfold addC M32
    omega
  rw [hc]
  cases scanTags s (addC c ((encodeTag fa).length + (encodeTag nxt).length + 4)) with
  | error e => rfl
  | ok r => simp [Except.map, List.append_assoc]

/-- File-attributes tag whose looked-ahead follower is not a metadata tag:
insert the telemetry tag, then copy the follower verbatim — whatever its
type (the lookahead does not re-check for telemetry, signed, or end tags). -/
theorem scanTags_fa_other (fa nxt : SwfTag) (hfa : wfTag fa)
    (hfat : fa.type = TAG_FILE_ATTRIBUTES) (hnxt : wfTag nxt)
    (hmeta : nxt.type ≠ TAG_META) (s : List Nat) (c : Nat) :
    scanTags (encodeTag fa ++ encodeTag nxt ++ s) c =
      (scanTags s
          (addC c ((encodeTag fa).length + (encodeTag nxt).length + 4))).map
        (fun r =>
          (encodeTag fa ++ [66, 23, 0, 0] ++ encodeTag nxt ++ r.1, r.2)) := by
  have h93 : ¬fa.type = TAG_TELEMETRY := by
    rw [hfat]
    decide
  have h94 : ¬fa.type = TAG_SIGNED_SWF := by
    rw [hfat]
    decide
  rw [List.append_assoc]
  conv_lhs => rw [scanTags.eq_def]
  simp only [peekTag_encodeTag fa hfa (encodeTag nxt ++ s), if_neg h93,
    if_neg h94, dif_pos hfat, peekTag_encodeTag nxt hnxt s, if_neg hmeta,
    writeTelemetryTag_eq]
  have hc2 : addC (addC (addC (addC c (encodeTag fa).length) 2) 2)
      (encodeTag nxt).length =
      addC c ((encodeTag fa).length + (encodeTag nxt).length + 4) := by
    unfold addC M32
    omega
  rw [hc2]
  cases scanTags s (addC c ((encodeTag fa).length + (encodeTag nxt).length + 4)) with
  | error e => rfl
  | ok r => simp [Except.map, List.append_assoc]

/-- The running counter invariant (C5 core): whenever the scan loop returns,
the final counter is the starting counter plus the number of bytes written,
reduced by the uint32 modulus. -/
theorem scanTags_counter (n : Nat) : ∀ s : List Nat, s.length ≤ n →
    ∀ c : Nat, c < M32 → ∀ o c', scanTags s c = .ok (o, c') →
    c' = (c + o.length) % M32 := by
  induction n with
  | zero =>
      intro s hs c hc o c' h
      have hnil : s = [] := List.eq_nil_of_length_eq_zero (by omega)
      rw [hnil, scanTags_nil] at h
      injection h with h1
      injection h1 with ho hc'
      rw [← hc', ← ho]
      unfold addC
      rfl
  | succ n ih =>
      intro s hs c hc o c' h
      rcases hps : peekTag s with ⟨tagType, td, s1⟩
      rw [scanTags.eq_def] at h
      rw [hps] at h
      simp only at h
      by_cases h93 : tagType = TAG_TELEMETRY
      · rw [if_pos h93] at h
        exact absurd h (by simp)
      rw [if_neg h93] at h
      by_cases h94 : tagType = TAG_SIGNED_SWF
      · rw [if_pos h94] at h
        exact absurd h (by simp)
      rw [if_neg h94] at h
      by_cases hfa : tagType = TAG_FILE_ATTRIBUTES
      · rw [dif_pos hfa] at h
        have hne : s ≠ [] := by
          intro hsn
          rw [hsn, peekTag_nil] at hps
          injection hps with hh _
          rw [hfa] at hh
          exact absurd hh (by decide)
        have hlen1 : s1.length < s.length := by
          have := peekTag_rest_length_lt s hne
          rw [hps] at this
          exact this
        rcases hq : peekTag s1 with ⟨nt, nd, s2⟩
        rw [hq] at h
        simp only at h
        have hlen2 : s2.length ≤ s1.length := by
          have := peekTag_rest_length_le s1
          rw [hq] at this
          exact this
        by_cases hmeta : nt = TAG_META
        · rw [if_pos hmeta, writeTelemetryTag_eq] at h
          cases hrec : scanTags s2 (addC (addC (addC (addC c td.length) nd.length) 2) 2) with
          | error e =>
              rw [hrec] at h
              exact absurd h (by simp)
          | ok r =>
              rw [hrec] at h
              simp only [Except.ok.injEq, Prod.mk.injEq] at h
              obtain ⟨ho, hc'⟩ := h
              have hr := ih s2 (by omega) _ (addC_lt _ _) r.1 r.2 (by rw [hrec])
              have hlen : o.length = td.length + nd.length + 4 + r.1.length := by
                rw [← ho]
                simp [List.length_append]
                omega
              unfold addC M32 at hr
              unfold M32 at hc
              unfold M32
              omega
        · rw [if_neg hmeta, writeTelemetryTag_eq] at h
          cases hrec : scanTags s2 (addC (addC (addC (addC c td.length) 2) 2) nd.length) with
          | error e =>
              rw [hrec] at h
              exact absurd h (by simp)
          | ok r =>
              rw [hrec] at h
              simp only [Except.ok.injEq, Prod.mk.injEq] at h
              obtain ⟨ho, hc'⟩ := h
              have hr := ih s2 (by omega) _ (addC_lt _ _) r.1 r.2 (by rw [hrec])
              have hlen : o.length = td.length + nd.length + 4 + r.1.length := by
                rw [← ho]
                simp [List.length_append]
                omega
              unfold addC M32 at hr
              unfold M32 at hc
              unfold M32
              omega
      rw [dif_neg hfa] at h
      by_cases hend : tagType = TAG_END
      · rw [dif_pos hend] at h
        injection h with h1
        injection h1 with ho hc'
        rw [← hc', ← ho]
        unfold addC
        rfl
      · rw [dif_neg hend] at h
        have hne : s ≠ [] := by
          intro hsn
          rw [hsn, peekTag_nil] at hps
          injection hps with hh _
          exact hend hh.symm
        have hlen1 : s1.length < s.length := by
          have := peekTag_rest_length_lt s hne
          rw [hps] at this
          exact this
        cases hrec : scanTags s1 (addC c td.length) with
        | error e =>
            rw [hrec] at h
            exact absurd h (by simp)
        | ok r =>
            rw [hrec] at h
            simp only [Except.ok.injEq, Prod.mk.injEq] at h
            obtain ⟨ho, hc'⟩ := h
            have hr := ih s1 (by omega) _ (addC_lt _ _) r.1 r.2 (by rw [hrec])
            rw [← ho, ← hc', hr]
            simp only [List.length_append]
            unfold addC M32
            unfold M32 at hc
            omega

theorem encodeTags_nil : encodeTags [] = [] := rfl

theorem encodeTags_cons (t : SwfTag) (l : List SwfTag) :
    encodeTags (t :: l) = encodeTag t ++ encodeTags l := rfl

/-- Tags that the scan loop copies without special handling. -/
def ordinaryTag (t : SwfTag) : Prop :=
  wfTag t ∧ t.type ≠ TAG_END ∧ t.type ≠ TAG_FILE_ATTRIBUTES ∧
    t.type ≠ TAG_TELEMETRY ∧ t.type ≠ TAG_SIGNED_SWF

instance (t : SwfTag) : Decidable (ordinaryTag t) := by
  unfold ordinaryTag
  infer_instance

/-- A run of ordinary tags is copied verbatim, in order, before whatever the
scan loop does with the remainder. -/
theorem scanTags_copy_run (pre : List SwfTag) :
    (∀ t ∈ pre, ordinaryTag t) → ∀ (s : List Nat) (c : Nat), c < M32 →
    scanTags (encodeTags pre ++ s) c =
      (scanTags s (addC c (encodeTags pre).length)).map
        (fun r => (encodeTags pre ++ r.1, r.2)) := by
  induction pre with
  | nil =>
      intro _ s c hc
      simp only [encodeTags_nil, List.nil_append, List.length_nil,
        addC_of_lt c 0 (by omega), Nat.add_zero]
      cases hsc : scanTags s c with
      | error e => rfl
      | ok r => simp [Except.map]
  | cons t l ihl =>
      intro hpre s c hc
      obtain ⟨hw, h0, h69, h93, h94⟩ := hpre t (List.mem_cons_self t l)
      rw [encodeTags_cons, List.append_assoc,
        scanTags_copy t hw h0 h69 h93 h94,
        ihl (fun x hx => hpre x (List.mem_cons_of_mem t hx)) s _
          (addC_lt _ _),
        addC_addC]
      rw [List.length_append]
      cases scanTags s (addC c ((encodeTag t).length + (encodeTags l).length)) with
      | error e => rfl
      | ok r => simp [Except.map, List.append_assoc]

/-- The body pipeline of `main` after the 8 header bytes (lines 153-206 of
the source), over the decompressed body bytes: reads the first bounding-box
byte, copies the computed number of trailing bounding-box bytes, copies the
2-byte frame rate and 2-byte frame count, then runs the scan loop.  The
counter starts from the 8 already counted for the header and is advanced by
1, `numberOfBytes`, 2 and 2 exactly as the source does.  Returns the bytes
written to `writer` and the final `headerUncompressedLength`. -/
def rewriteBody (body : List Nat) : Except Err (List Nat × Nat) :=
  let rs := readU8 body
  let nb := numberOfBytes rs.1
  let rd := readFull nb rs.2
  let rr := readU16LE rd.2
  let rc := readU16LE rr.2
  let c0 := addC (addC (addC (addC (addC 0 8) 1) nb) 2) 2
  match scanTags rc.2 c0 with
  | .error e => .error e
  | .ok r => .ok (u8 rs.1 ++ rd.1 ++ u16le rr.1 ++ u16le rc.1 ++ r.1, r.2)

/-- Model of `main` on an input whose signature selected the pass-through
("FWS") path: the 8-byte header struct is read and written back verbatim
(identity on byte-valued inputs), the body is rewritten, and finally the
4-byte length field at offset 4 of the output file is overwritten with the
final counter, little-endian.  If fewer than 8 header bytes exist,
`binary.Read` fails and `main` returns before processing (the one read whose
error the source does check).  The zlib ("CWS") path runs the same
`rewriteBody` between an inflater and a deflater and is covered by the
`rewriteBody`/`scanTags` theorems; the remaining signatures never reach this
pipeline (see `dispatchCompression`). -/
def addOptInFWS (input : List Nat) : Except Err (List Nat) :=
  if input.length < 8 then .error .headerTruncated
  else
    match rewriteBody (input.drop 8) with
    | .error e => .error e
    | .ok r => .ok (input.take 4 ++ u32le r.2 ++ r.1)

/-! ### Occurrence counting (used to state the C10 counterexample) -/

/-- Predicate `leadsWith pat l` is true when `pat` is an initial run of `l`. -/
def leadsWith : List Nat → List Nat → Bool
  | [], _ => true
  | _ :: _, [] => false
  | p :: ps, x :: xs => if p = x then leadsWith ps xs else false

/-- Number of positions of `l` at which the byte pattern `pat` occurs. -/
def countSubOcc (pat l : List Nat) : Nat :=
  (l.tails.filter (fun t => leadsWith pat t)).length

/-! ### Segment streams (used to state the amended C10) -/

/-- A segment of a well-behaved body: either one ordinary tag, or a
file-attributes tag together with the single tag the lookahead consumes. -/
inductive Seg where
  | ord : SwfTag → Seg
  | faPair : SwfTag → SwfTag → Seg

/-- Well-formedness of a segment: an ordinary segment is an ordinary tag; a
file-attributes segment pairs a well-formed file-attributes tag with an
ordinary follower (possibly metadata, but not end, file-attributes,
telemetry, or signed — so in particular no file-attributes tag immediately
follows another). -/
def Seg.wf : Seg → Prop
  | .ord t => ordinaryTag t
  | .faPair f n => wfTag f ∧ f.type = TAG_FILE_ATTRIBUTES ∧ ordinaryTag n

instance : (g : Seg) → Decidable g.wf
  | .ord t => by
      show Decidable (ordinaryTag t)
      infer_instance
  | .faPair f n => by
      show Decidable (_ ∧ _ ∧ _)
      infer_instance

/-- The input bytes of a segment. -/
def Seg.inBytes : Seg → List Nat
  | .ord t => encodeTag t
  | .faPair f n => encodeTag f ++ encodeTag n

/-- The output bytes of a segment: a file-attributes segment gets exactly one
synthesized telemetry tag, placed after the follower when it is metadata and
before it otherwise. -/
def Seg.outBytes : Seg → List Nat
  | .ord t => encodeTag t
  | .faPair f n =>
      encodeTag f ++
        (if n.type = TAG_META then encodeTag n ++ [66, 23, 0, 0]
         else [66, 23, 0, 0] ++ encodeTag n)

/-- Concatenated input bytes of a segment list. -/
def segsIn (l : List Seg) : List Nat := l.foldr (fun g acc => g.inBytes ++ acc) []

/-- Concatenated output bytes of a segment list. -/
def segsOut (l : List Seg) : List Nat := l.foldr (fun g acc => g.outBytes ++ acc) []

theorem segsIn_cons (g : Seg) (l : List Seg) :
    segsIn (g :: l) = g.inBytes ++ segsIn l := rfl

theorem segsOut_cons (g : Seg) (l : List Seg) :
    segsOut (g :: l) = g.outBytes ++ segsOut l := rfl

/-! ### Claim C8 -/

/-- Claim C8: `peekTag` returns the full original wire encoding (length
prefix plus payload), reading the long form exactly when the tag announces it
(low-6-bits field 63, i.e. the `longForm` encoding), so re-emitting the
returned bytes reproduces the original encoding bit-identically; the second
conjunct records that the long form carries 6 prefix bytes (its identical
32-bit length field included) and the short form 2. -/
theorem c8_framing_fidelity (t : SwfTag) (ht : wfTag t) (rest : List Nat) :
    peekTag (encodeTag t ++ rest) = (t.type, encodeTag t, rest) ∧
    (encodeTag t).length = (if t.longForm then 6 else 2) + t.payload.length := by
  refine ⟨peekTag_encodeTag t ht rest, ?_⟩
  cases hl : t.longForm with
  | false =>
      simp [encodeTag_short t hl, u16le]
      omega
  | true =>
      simp [encodeTag_long t hl, u16le, u32le]
      omega

/-- Witness for C8 at a concrete long-form tag (type 5, 1-byte payload,
wire bytes `[127, 1, 1, 0, 0, 0, 9]`) followed by two unread bytes. -/
theorem c8_witness :
    peekTag (encodeTag ⟨5, [9], true⟩ ++ [1, 2]) =
      (5, encodeTag ⟨5, [9], true⟩, [1, 2]) ∧
    (encodeTag ⟨5, [9], true⟩).length = 6 + 1 :=
  c8_framing_fidelity ⟨5, [9], true⟩ (by decide) [1, 2]

/-! ### Claim C1 -/

/-- Claim C1 (code evaluated at the failing input): the claim says a stream
that already contains a telemetry tag always raises `AlreadyEnabledError`.
On the stream file-attributes, telemetry, end (exactly the shape this
program itself outputs), the lookahead copies the existing telemetry tag
`[66, 23, 0, 0]` without checking its type, a second telemetry tag is
synthesized next to it, and the scan returns successfully — no
`alreadyEnabled` error. -/
theorem c1_lookahead_misses_telemetry :
    scanTags [64, 17, 66, 23, 0, 0, 0, 0] 0 =
      .ok ([64, 17, 66, 23, 0, 0, 66, 23, 0, 0, 0, 0], 12) := by
  have h1 := scanTags_fa_other ⟨69, [], false⟩ ⟨93, [0, 0], false⟩
    (by decide) (by decide) (by decide) (by decide) [0, 0] 0
  rw [scanTags_end] at h1
  exact h1

/-! ### Claim C3 -/

/-- Claim C3 (code evaluated at the failing input): the claim says exactly
one end record is emitted, it is last, and scanning stops once an end record
is consumed.  On the stream file-attributes, end — where the end record is
consumed by the one-step lookahead — the loop copies the end record, keeps
scanning, and fabricates a second end record `[0, 0]` out of the exhausted
source (the type-0 word a failed read leaves behind), so the output carries
two end records and rewriting did not stop at the consumed one. -/
theorem c3_lookahead_end_duplicated :
    scanTags [64, 17, 0, 0] 0 =
      .ok ([64, 17, 66, 23, 0, 0, 0, 0, 0, 0], 10) := by
  have h1 := scanTags_fa_other ⟨69, [], false⟩ ⟨0, [], false⟩
    (by decide) (by decide) (by decide) (by decide) [] 0
  rw [scanTags_nil] at h1
  exact h1

/-! ### Claim C10 -/

/-- Counterexample to C10: on a stream with two adjacent file-attributes
tags before the end tag (neither followed by a telemetry or signed tag), the
claim demands a telemetry tag inserted after each of the two occurrences;
the code consumes the second file-attributes tag through the lookahead and
re-anchors on nothing, so the output carries exactly one telemetry encoding
`[66, 23, 0, 0]` — and none between the second file-attributes tag
`[64, 17]` and the end tag. -/
theorem c10_counterexample :
    scanTags [64, 17, 64, 17, 0, 0] 0 =
      .ok ([64, 17, 66, 23, 0, 0, 64, 17, 0, 0], 10) ∧
    countSubOcc [66, 23, 0, 0] [64, 17, 66, 23, 0, 0, 64, 17, 0, 0] = 1 := by
  constructor
  · have h1 := scanTags_fa_other ⟨69, [], false⟩ ⟨69, [], false⟩
      (by decide) (by decide) (by decide) (by decide) [0, 0] 0
    rw [scanTags_end] at h1
    exact h1
  · decide

/-- Amended C10: the insertion logic re-fires for every file-attributes tag
read at the top of the scan loop — one telemetry tag per file-attributes
occurrence — provided no file-attributes tag is itself the looked-ahead
follower of another (adjacent file-attributes), since the lookahead consumes
the follower without re-anchoring on it. -/
theorem c10_amended (segs : List Seg) (h : ∀ g ∈ segs, g.wf) (c : Nat)
    (hc : c < M32) :
    scanTags (segsIn segs ++ [0, 0]) c =
      .ok (segsOut segs ++ [0, 0],
        addC (addC c (segsOut segs).length) 2) := by
  induction segs generalizing c with
  | nil =>
      show scanTags (0 :: 0 :: []) c = _
      rw [scanTags_end]
      simp [segsOut, addC_of_lt c 0 (by omega)]
  | cons g l ihl =>
      have hg := h g (List.mem_cons_self g l)
      have hl' : ∀ g ∈ l, Seg.wf g := fun x hx => h x (List.mem_cons_of_mem g hx)
      cases g with
      | ord t =>
          obtain ⟨hw, h0, h69, h93, h94⟩ := hg
          rw [segsIn_cons, Seg.inBytes, List.append_assoc,
            scanTags_copy t hw h0 h69 h93 h94, ihl hl' _ (addC_lt _ _)]
          rw [segsOut_cons, Seg.outBytes]
          simp only [Except.map, List.append_assoc, List.length_append]
          rw [addC_addC c (encodeTag t).length (segsOut l).length]
      | faPair f n =>
          obtain ⟨hwf, hft, hn⟩ := hg
          obtain ⟨hnw, hn0, hn69, hn93, hn94⟩ := hn
          rw [segsIn_cons, Seg.inBytes, List.append_assoc]
          by_cases hm : n.type = TAG_META
          · rw [scanTags_fa_meta f n hwf hft hnw hm _ c,
              ihl hl' _ (addC_lt _ _)]
            rw [segsOut_cons, Seg.outBytes, if_pos hm]
            simp only [Except.map, List.append_assoc, List.length_append,
              List.length_cons, List.length_nil]
            have hsum : (encodeTag f).length +
                ((encodeTag n).length + (0 + 1 + 1 + 1 + 1 + (segsOut l).length)) =
                (encodeTag f).length + (encodeTag n).length + 4 +
                  (segsOut l).length := by
              omega
            rw [hsum, addC_addC c ((encodeTag f).length +
              (encodeTag n).length + 4) (segsOut l).length]
          · rw [scanTags_fa_other f n hwf hft hnw hm _ c,
              ihl hl' _ (addC_lt _ _)]
            rw [segsOut_cons, Seg.outBytes, if_neg hm]
            simp only [Except.map, List.append_assoc, List.length_append,
              List.length_cons, List.length_nil]
            have hsum : (encodeTag f).length +
                (0 + 1 + 1 + 1 + 1 + ((encodeTag n).length + (segsOut l).length)) =
                (encodeTag f).length + (encodeTag n).length + 4 +
                  (segsOut l).length := by
              omega
            rw [hsum, addC_addC c ((encodeTag f).length +
              (encodeTag n).length + 4) (segsOut l).length]

/-- Witness for the amended C10: one file-attributes tag followed by a
metadata tag, then the end tag; the output carries the telemetry tag after
the metadata tag and the final counter is 10. -/
theorem c10_amended_witness :
    scanTags [64, 17, 64, 19, 0, 0] 0 =
      .ok ([64, 17, 64, 19, 66, 23, 0, 0, 0, 0], 10) :=
  c10_amended [Seg.faPair ⟨69, [], false⟩ ⟨77, [], false⟩] (by decide) 0
    (by decide)

/-! ### Claim C2 -/

/-- Claim C2: for a stream consisting of any run of ordinary records, then a
file-attributes record, then its follower, then anything: the output starts
with the ordinary run copied in order, then the file-attributes record, then
— when the follower is a metadata record — the metadata record followed by
the synthesized telemetry record `[66, 23, 0, 0]`, otherwise the telemetry
record followed by the original next record; the rest of the stream is
processed unchanged after that point (and any error there propagates). -/
theorem c2_insertion_ordering (pre : List SwfTag) (fa nxt : SwfTag)
    (s : List Nat) (c : Nat) (hc : c < M32)
    (hpre : ∀ t ∈ pre, ordinaryTag t)
    (hfa : wfTag fa) (hfat : fa.type = TAG_FILE_ATTRIBUTES)
    (hnxt : wfTag nxt) :
    scanTags (encodeTags pre ++ (encodeTag fa ++ encodeTag nxt ++ s)) c =
      (scanTags s (addC c ((encodeTags pre).length + (encodeTag fa).length +
          (encodeTag nxt).length + 4))).map
        (fun r => (encodeTags pre ++ encodeTag fa ++
          (if nxt.type = TAG_META then encodeTag nxt ++ [66, 23, 0, 0]
           else [66, 23, 0, 0] ++ encodeTag nxt) ++ r.1, r.2)) := by
  rw [scanTags_copy_run pre hpre _ c hc]
  have hsum : (encodeTags pre).length + ((encodeTag fa).length +
      (encodeTag nxt).length + 4) = (encodeTags pre).length +
      (encodeTag fa).length + (encodeTag nxt).length + 4 := by
    omega
  by_cases hm : nxt.type = TAG_META
  · rw [scanTags_fa_meta fa nxt hfa hfat hnxt hm s
      (addC c (encodeTags pre).length),
      addC_addC c (encodeTags pre).length
        ((encodeTag fa).length + (encodeTag nxt).length + 4), hsum]
    cases scanTags s (addC c ((encodeTags pre).length +
        (encodeTag fa).length + (encodeTag nxt).length + 4)) with
    | error e => rfl
    | ok r => simp [Except.map, if_pos hm, List.append_assoc]
  · rw [scanTags_fa_other fa nxt hfa hfat hnxt hm s
      (addC c (encodeTags pre).length),
      addC_addC c (encodeTags pre).length
        ((encodeTag fa).length + (encodeTag nxt).length + 4), hsum]
    cases scanTags s (addC c ((encodeTags pre).length +
        (encodeTag fa).length + (encodeTag nxt).length + 4)) with
    | error e => rfl
    | ok r => simp [Except.map, if_neg hm, List.append_assoc]

/-- Witness for C2: one ordinary record (type 5), then file-attributes, then
metadata, then the end record; the telemetry record lands after the metadata
record and everything else keeps its order. -/
theorem c2_witness :
    scanTags [64, 1, 64, 17, 64, 19, 0, 0] 0 =
      .ok ([64, 1, 64, 17, 64, 19, 66, 23, 0, 0, 0, 0], 12) := by
  have h := c2_insertion_ordering [⟨5, [], false⟩] ⟨69, [], false⟩
    ⟨77, [], false⟩ [0, 0] 0 (by decide) (by decide) (by decide) (by decide)
    (by decide)
  rw [scanTags_end] at h
  exact h

/-! ### Claims C7 and C5 -/

theorem readFull_fst_length (n : Nat) (s : List Nat) :
    (readFull n s).1.length = n := by
  simp [readFull, List.length_take]
  omega

theorem numberOfBytes_le (fs : Nat) : numberOfBytes fs ≤ 16 := by
  unfold numberOfBytes nBits
  omega

/-- Evaluation of `rewriteBody` on a well-formed body with no file-attributes, telemetry,
or signed record: every byte is copied verbatim and the final counter is 8
(the header) plus the body length. -/
theorem rewriteBody_wf (fs r0 r1 k0 k1 : Nat) (fd : List Nat)
    (recs : List SwfTag) (hfs : fs < 256) (hr0 : r0 < 256) (hr1 : r1 < 256)
    (hk0 : k0 < 256) (hk1 : k1 < 256)
    (hfd : fd.length = numberOfBytes fs)
    (hrecs : ∀ t ∈ recs, ordinaryTag t)
    (hlen : 15 + fd.length + (encodeTags recs).length < M32) :
    rewriteBody (fs :: (fd ++ ([r0, r1, k0, k1] ++ (encodeTags recs ++ [0, 0])))) =
      .ok (fs :: (fd ++ ([r0, r1, k0, k1] ++ (encodeTags recs ++ [0, 0]))),
        15 + fd.length + (encodeTags recs).length) := by
  have hnb := numberOfBytes_le fs
  unfold rewriteBody
  simp only [readU8]
  rw [← hfd, readFull_exact fd ([r0, r1, k0, k1] ++ (encodeTags recs ++ [0, 0]))]
  simp only [List.cons_append, List.nil_append, readU16LE]
  have hc0 : addC (addC (addC (addC (addC 0 8) 1) fd.length) 2) 2 =
      13 + fd.length := by
    unfold addC M32
    omega
  rw [hc0, scanTags_copy_run recs hrecs [0, 0] (13 + fd.length)
    (by unfold M32; omega), scanTags_end]
  have hfin : addC (addC (13 + fd.length) (encodeTags recs).length) 2 =
      15 + fd.length + (encodeTags recs).length := by
    unfold addC M32
    unfold M32 at hlen
    omega
  rw [hfin]
  simp only [Except.map, u8, Nat.mod_eq_of_lt hfs,
    u16le_decode r0 r1 hr0 hr1, u16le_decode k0 k1 hk0 hk1]
  simp [List.append_assoc]

/-- Claim C7: on an input stream (pass-through signature) containing no
file-attributes record — only ordinary records before the end record — the
output equals the input byte for byte, except that bytes 4-7 hold the
patched length (which equals the total input length here), and in particular
no telemetry record is inserted. -/
theorem c7_roundtrip (ver l0 l1 l2 l3 fs r0 r1 k0 k1 : Nat) (fd : List Nat)
    (recs : List SwfTag) (hver : ver < 256) (hl0 : l0 < 256) (hl1 : l1 < 256)
    (hl2 : l2 < 256) (hl3 : l3 < 256) (hfs : fs < 256) (hr0 : r0 < 256)
    (hr1 : r1 < 256) (hk0 : k0 < 256) (hk1 : k1 < 256)
    (hfd : fd.length = numberOfBytes fs)
    (hrecs : ∀ t ∈ recs, ordinaryTag t)
    (hlen : 15 + fd.length + (encodeTags recs).length < M32) :
    addOptInFWS ([70, 87, 83, ver, l0, l1, l2, l3] ++
        (fs :: (fd ++ ([r0, r1, k0, k1] ++ (encodeTags recs ++ [0, 0]))))) =
      .ok ([70, 87, 83, ver] ++
        (u32le (15 + fd.length + (encodeTags recs).length) ++
          (fs :: (fd ++ ([r0, r1, k0, k1] ++ (encodeTags recs ++ [0, 0])))))) := by
  unfold addOptInFWS
  rw [if_neg (by
    simp only [List.length_append, List.length_cons, List.length_nil]
    omega)]
  have hdrop : ([70, 87, 83, ver, l0, l1, l2, l3] ++
      (fs :: (fd ++ ([r0, r1, k0, k1] ++ (encodeTags recs ++ [0, 0]))))).drop 8 =
      fs :: (fd ++ ([r0, r1, k0, k1] ++ (encodeTags recs ++ [0, 0]))) := by
    simp
  have htake : ([70, 87, 83, ver, l0, l1, l2, l3] ++
      (fs :: (fd ++ ([r0, r1, k0, k1] ++ (encodeTags recs ++ [0, 0]))))).take 4 =
      [70, 87, 83, ver] := by
    simp
  rw [hdrop, htake, rewriteBody_wf fs r0 r1 k0 k1 fd recs hfs hr0 hr1 hk0 hk1
    hfd hrecs hlen]
  simp [List.append_assoc]

/-- Witness for C7 at the smallest well-formed stream: version 1, zero
bounding box, zero frame rate and count, no body records; the output equals
the 15-byte input with bytes 4-7 patched to 15. -/
theorem c7_witness :
    addOptInFWS [70, 87, 83, 1, 0, 0, 0, 0, 0, 0, 0, 0, 0, 0, 0] =
      .ok [70, 87, 83, 1, 15, 0, 0, 0, 0, 0, 0, 0, 0, 0, 0] := by
  have h := c7_roundtrip 1 0 0 0 0 0 0 0 0 0 [] [] (by decide) (by decide)
    (by decide) (by decide) (by decide) (by decide) (by decide) (by decide)
    (by decide) (by decide) (by decide) (by simp) (by decide)
  exact h

/-- Counter invariant of the body pipeline: on success the final counter is
8 (the header bytes, counted before the body starts) plus the number of body
bytes written, reduced by the uint32 modulus. -/
theorem rewriteBody_counter (b o : List Nat) (c' : Nat)
    (h : rewriteBody b = .ok (o, c')) : c' = (8 + o.length) % M32 := by
  unfold rewriteBody at h
  simp only at h
  cases hsc : scanTags
      ((readU16LE ((readU16LE ((readFull (numberOfBytes (readU8 b).1)
        ((readU8 b).2)).2)).2)).2)
      (addC (addC (addC (addC (addC 0 8) 1) (numberOfBytes (readU8 b).1)) 2) 2) with
  | error e =>
      rw [hsc] at h
      exact absurd h (by simp)
  | ok r =>
      rw [hsc] at h
      simp only [Except.ok.injEq, Prod.mk.injEq] at h
      obtain ⟨ho, hc'⟩ := h
      have hcnt := scanTags_counter
        ((readU16LE ((readU16LE ((readFull (numberOfBytes (readU8 b).1)
          ((readU8 b).2)).2)).2)).2).length
        ((readU16LE ((readU16LE ((readFull (numberOfBytes (readU8 b).1)
          ((readU8 b).2)).2)).2)).2) (le_refl _) _ (addC_lt _ _) r.1 r.2 hsc
      have holen : o.length = 1 + numberOfBytes (readU8 b).1 + 2 + 2 +
          r.1.length := by
        rw [← ho]
        simp [u8, u16le, readFull_fst_length, List.length_append]
        omega
      rw [← hc', hcnt, holen]
      unfold addC M32
      omega

/-- Claim C5: for every successful pass-through rewrite, the 4-byte
little-endian value at byte offset 4 of the output (the patched length
field) encodes exactly the total count of uncompressed bytes written — the
8 header bytes plus bounding box, frame rate, frame count, every copied
record and any synthesized telemetry record, i.e. the whole output length —
whenever that count fits the 32-bit field. -/
theorem c5_length_patch (input out : List Nat)
    (h : addOptInFWS input = .ok out) (hlen : out.length < M32) :
    (out.drop 4).take 4 = u32le out.length := by
  unfold addOptInFWS at h
  by_cases h8 : input.length < 8
  · rw [if_pos h8] at h
    exact absurd h (by simp)
  · rw [if_neg h8] at h
    cases hrb : rewriteBody (input.drop 8) with
    | error e =>
        rw [hrb] at h
        exact absurd h (by simp)
    | ok r =>
        rw [hrb] at h
        simp only [Except.ok.injEq] at h
        have hcnt := rewriteBody_counter (input.drop 8) r.1 r.2 (by rw [hrb])
        have ht4 : (input.take 4).length = 4 := by
          rw [List.length_take]
          omega
        have hu4 : (u32le r.2).length = 4 := by simp [u32le]
        have hdrop : out.drop 4 = u32le r.2 ++ r.1 := by
          rw [← h, List.append_assoc]
          exact List.drop_left' ht4
        have htake : (out.drop 4).take 4 = u32le r.2 := by
          rw [hdrop]
          exact List.take_left' hu4
        have holen : out.length = 8 + r.1.length := by
          rw [← h]
          simp only [List.length_append, ht4, hu4]
        have hr2 : r.2 = out.length := by
          rw [hcnt, ← holen]
          exact Nat.mod_eq_of_lt hlen
        rw [htake, hr2]

/-- Concrete evaluation of the pass-through pipeline on the smallest
well-formed stream (shared by witnesses below). -/
theorem addOptInFWS_min :
    addOptInFWS [70, 87, 83, 1, 0, 0, 0, 0, 0, 0, 0, 0, 0, 0, 0] =
      .ok [70, 87, 83, 1, 15, 0, 0, 0, 0, 0, 0, 0, 0, 0, 0] := by
  have h : rewriteBody [0, 0, 0, 0, 0, 0, 0] = .ok ([0, 0, 0, 0, 0, 0, 0], 15) :=
    rewriteBody_wf 0 0 0 0 0 [] [] (by decide) (by decide) (by decide)
      (by decide) (by decide) (by decide) (by simp) (by decide)
  unfold addOptInFWS
  rw [if_neg (by decide)]
  have h3 : List.drop 8 [70, 87, 83, 1, 0, 0, 0, 0, 0, 0, 0, 0, 0, 0, 0] =
      [0, 0, 0, 0, 0, 0, 0] := rfl
  rw [h3, h]
  rfl

/-- Witness for C5 at the output of `addOptInFWS_min`: bytes 4-7 of the
15-byte output are `u32le 15`. -/
theorem c5_witness :
    (([70, 87, 83, 1, 15, 0, 0, 0, 0, 0, 0, 0, 0, 0, 0].drop 4).take 4) =
      u32le ([70, 87, 83, 1, 15, 0, 0, 0, 0, 0, 0, 0, 0, 0, 0].length) :=
  c5_length_patch [70, 87, 83, 1, 0, 0, 0, 0, 0, 0, 0, 0, 0, 0, 0] _
    addOptInFWS_min (by decide)

end SwfTelemetry
